import Mathlib

/-!
Verification of the postcode-lookup core (`src/lib.rs`): the delta-compressed
integer-list codec `decompress_house_numbers`, the lookup engine
`lookup_address_fst`, the batch variant `lookup_batch` and the blob loader
`load_data`, shallowly embedded over `List (Fin 256)` byte slices and
`List Char` strings.  Machine integers are modelled as `Nat`; the one place
where overflow matters (the `u32` addition `last_num + delta`) carries an
explicit `% 2 ^ 32`.
-/

namespace Postrust

/-- Little-endian `u16` value of two bytes, as in `u16::from_le_bytes`. -/
def u16le (b0 b1 : Fin 256) : Nat := b0.val + 256 * b1.val

/-- Little-endian value of a byte list (first byte least significant). -/
def leVal (bs : List (Fin 256)) : Nat :=
  bs.foldr (fun b acc => acc * 256 + b.val) 0

/-- Little-endian `u64` value of the first 8 bytes, as in `u64::from_le_bytes`. -/
def u64le (bs : List (Fin 256)) : Nat := leVal (bs.take 8)

/-- The `w`-byte little-endian encoding of `n` (truncating to `w` bytes). -/
def natToLE : Nat → Nat → List (Fin 256)
  | 0, _ => []
  | w + 1, n => ⟨n % 256, Nat.mod_lt _ (by omega)⟩ :: natToLE w (n / 256)

/-- The delta-decoding loop of `decompress_house_numbers` (`src/lib.rs:144-165`).
`r` is the number of values still owed (`len - nums.len()`), `last` is
`last_num`.  Marker byte `0` escapes to a two-byte little-endian delta;
markers `1..=255` are the delta itself.  The `u32` sum wraps mod `2 ^ 32`. -/
def decodeDeltas : List (Fin 256) → Nat → Nat → List Nat
  | _, _, 0 => []
  | [], _, _ + 1 => []
  | marker :: rest, last, r + 1 =>
    if marker.val = 0 then
      match rest with
      | b0 :: b1 :: rest2 =>
        let n := (last + u16le b0 b1) % 2 ^ 32
        n :: decodeDeltas rest2 n r
      | _ => []
    else
      let n := (last + marker.val) % 2 ^ 32
      n :: decodeDeltas rest n r

/-- Embedding of `decompress_house_numbers` (`src/lib.rs:124-167`): reads a
`u16` count, a `u16` first value, then the delta stream; truncated input
yields the partial list decoded so far. -/
def decompress_house_numbers (data : List (Fin 256)) : List Nat :=
  match data with
  | b0 :: b1 :: rest =>
    let len := u16le b0 b1
    if len = 0 then []
    else
      match rest with
      | c0 :: c1 :: rest2 =>
        let first := u16le c0 c1
        first :: decodeDeltas rest2 first (len - 1)
      | _ => []
  | _ => []

/-- The count field declared by an encoded list: the leading little-endian
`u16`, or `0` when fewer than two bytes are present. -/
def declared_count (data : List (Fin 256)) : Nat :=
  match data with
  | b0 :: b1 :: _ => u16le b0 b1
  | _ => 0

/-- Modelled from the spec: the loop of Rust core's `slice::binary_search_by`
(external standard-library code; the spec only says "binary-search
`house_number`").  `base`/`size` delimit the live window; each round probes
`base + size / 2` and keeps the half that can contain the target.  `fuel`
only forces structural termination: the window shrinks every round, so any
`fuel ≥ size` is never exhausted. -/
def bsearchLoop (xs : List Nat) (t : Nat) : Nat → Nat → Nat → Nat
  | 0, base, _ => base
  | fuel + 1, base, size =>
    if 1 < size then
      bsearchLoop xs t fuel
        (if t < xs.getD (base + size / 2) 0 then base else base + size / 2)
        (size - size / 2)
    else base

/-- Modelled from the spec: `slice::binary_search(&t).is_ok()` — empty slices
give `Err`; otherwise the loop narrows to one index and `Ok` iff the element
there equals the target. -/
def binary_search_is_ok (xs : List Nat) (t : Nat) : Bool :=
  if xs.length = 0 then false
  else xs.getD (bsearchLoop xs t xs.length 0 xs.length) 0 == t

/-- Embedding of `key_str.split('|')` on `List Char` text: splits at every
`'|'`, keeping empty parts, as Rust's `str::split` does. -/
def splitPipe : List Char → List (List Char)
  | [] => [[]]
  | c :: rest =>
    if c = '|' then [] :: splitPipe rest
    else
      match splitPipe rest with
      | [] => [[c]]
      | p :: ps => (c :: p) :: ps

/-- Embedding of `postcode.to_uppercase()`.  Rust uppercases per the full
Unicode mapping; postal-code keys are ASCII, so the ASCII per-character
mapping `Char.toUpper` is the faithful restriction used here. -/
def to_uppercase (s : List Char) : List Char := s.map Char.toUpper

/-- Ascending byte order on keys.  UTF-8 byte order coincides with
codepoint-lexicographic order, embedded as `List.Lex (· < ·)` on `Char`. -/
def keyLt (a b : List Char) : Prop := List.Lex (· < ·) a b

/-- Embedding of the `LookupResult` record (`src/lib.rs:26-31`). -/
structure LookupResult where
  postcode : List Char
  straat : List Char
  huisnummer : Nat
  woonplaats : List Char
deriving DecidableEq, Repr

/-- Embedding of `PostcodeData` (`src/lib.rs:19-22`): the fst map is its
interface-level content, the ordered list of (key, offset) entries. -/
structure PostcodeData where
  fst_map : List (List Char × Nat)
  house_data : List (Fin 256)
deriving DecidableEq, Repr

/-- Modelled from the spec: `fst_map.search(Str::new(prefix).starts_with())`
(external `fst` crate) — `search_prefix(P)` yields exactly the entries whose
key begins with `P`, in the map's ascending key order. -/
def searchPrefixEntries (m : List (List Char × Nat)) (pre : List Char) :
    List (List Char × Nat) :=
  m.filter fun kv => pre.isPrefixOf kv.1

/-- The candidate loop of `lookup_address_fst` (`src/lib.rs:104-121`): decode
the list at each candidate's offset, binary-search the house number, and on a
hit return the three-way split of the key — skipping keys that do not split
into exactly three parts. -/
def findFirstMatch (pu : List Char) (house_number : Nat)
    (house_data : List (Fin 256)) : List (List Char × Nat) → Option LookupResult
  | [] => none
  | (key, offset) :: rest =>
    let house_numbers := decompress_house_numbers (house_data.drop offset)
    if binary_search_is_ok house_numbers house_number then
      let parts := splitPipe key
      if parts.length = 3 then
        some { postcode := pu, straat := parts.getD 1 [],
               huisnummer := house_number, woonplaats := parts.getD 2 [] }
      else findFirstMatch pu house_number house_data rest
    else findFirstMatch pu house_number house_data rest

/-- Embedding of `lookup_address_fst` (`src/lib.rs:93-122`). -/
def lookup_address_fst (data : PostcodeData) (postcode : List Char)
    (house_number : Nat) : Option LookupResult :=
  let postcode_upper := to_uppercase postcode
  findFirstMatch postcode_upper house_number data.house_data
    (searchPrefixEntries data.fst_map (postcode_upper ++ ['|']))

/-- Embedding of `lookup_batch` (`src/lib.rs:61-68`): one independent
`lookup_address_fst` per query, in input order. -/
def lookup_batch (data : PostcodeData) (queries : List (List Char × Nat)) :
    List (Option LookupResult) :=
  queries.map fun q => lookup_address_fst data q.1 q.2

/-- Embedding of `load_data` (`src/lib.rs:72-91`) on the decompressed buffer
(brotli decompression is an external black box).  The index deserializer
`Map::new` is external `fst`-crate code, passed in as `parseIndex`; `none`
models the panic of `.expect(...)` and of out-of-range slicing, so no
partially loaded structure is ever returned. -/
def load_data (parseIndex : List (Fin 256) → Option (List (List Char × Nat)))
    (decompressed : List (Fin 256)) : Option PostcodeData :=
  if decompressed.length < 16 then none
  else
    let fst_len := u64le (decompressed.take 8)
    let house_data_len := u64le ((decompressed.drop 8).take 8)
    if decompressed.length < 16 + fst_len + house_data_len then none
    else
      let fst_bytes := (decompressed.drop 16).take fst_len
      let house_data_bytes := (decompressed.drop (16 + fst_len)).take house_data_len
      match parseIndex fst_bytes with
      | some m => some { fst_map := m, house_data := house_data_bytes }
      | none => none

/-- Modelled from the spec: the normative delta-stream entry layout of the
data-preparation pipeline (not in this crate) — a gap in `1..=255` is a
single marker byte, anything else is the escape marker `0` followed by the
delta as a little-endian `u16`. -/
def encodeDelta (d : Nat) : List (Fin 256) :=
  if 1 ≤ d ∧ d ≤ 255 then [⟨d % 256, Nat.mod_lt _ (by omega)⟩]
  else ⟨0, by omega⟩ :: natToLE 2 d

/-- Modelled from the spec: one encoded integer list — `u16` count, `u16`
first value, then one delta-stream entry per remaining element. -/
def encodeList (first : Nat) (deltas : List Nat) : List (Fin 256) :=
  natToLE 2 (deltas.length + 1) ++ natToLE 2 first ++ (deltas.map encodeDelta).flatten

/-- Consecutive gaps of a value list: `deltasOf prev [v₁, v₂, ...] =
[v₁ - prev, v₂ - v₁, ...]`. -/
def deltasOf : Nat → List Nat → List Nat
  | _, [] => []
  | prev, v :: vs => (v - prev) :: deltasOf v vs

/-- Modelled from the spec: the encoder for a whole value list — an empty
list is just a zero count; otherwise the first value and the gap stream. -/
def encode (vs : List Nat) : List (Fin 256) :=
  match vs with
  | [] => natToLE 2 0
  | v :: rest => encodeList v (deltasOf v rest)

/-- Cumulative sums: `cumSums last [d₁, d₂, ...] = [last + d₁, last + d₁ + d₂, ...]`. -/
def cumSums : Nat → List Nat → List Nat
  | _, [] => []
  | last, d :: ds => (last + d) :: cumSums (last + d) ds

/-- A candidate entry structurally matches a query: its decoded list
binary-searches to the house number and its key splits into three parts. -/
def matchesCand (n : Nat) (house_data : List (Fin 256))
    (kv : List Char × Nat) : Prop :=
  binary_search_is_ok (decompress_house_numbers (house_data.drop kv.2)) n = true ∧
    (splitPipe kv.1).length = 3

/-- The strictly increasing list `[0, 1, ..., 65535]` of all 65536 values in
`u16` range, written so its head is exposed for reduction. -/
def fullU16List : List Nat := 0 :: (List.range 65535).map (· + 1)

/-- A toy index deserializer accepting only the empty segment, used to
instantiate the loader theorem on a concrete input. -/
def parseEx (bs : List (Fin 256)) : Option (List (List Char × Nat)) :=
  if bs.isEmpty then some [] else none

/-! ### Equation lemmas for the delta decoder -/

theorem decodeDeltas_zero (data : List (Fin 256)) (last : Nat) :
    decodeDeltas data last 0 = [] := by
  cases data <;> rfl

theorem decodeDeltas_nil (last r : Nat) : decodeDeltas [] last (r + 1) = [] := rfl

theorem decodeDeltas_escape (marker b0 b1 : Fin 256) (rest2 : List (Fin 256))
    (last r : Nat) (h : marker.val = 0) :
    decodeDeltas (marker :: b0 :: b1 :: rest2) last (r + 1) =
      ((last + u16le b0 b1) % 2 ^ 32) ::
        decodeDeltas rest2 ((last + u16le b0 b1) % 2 ^ 32) r := by
  simp [decodeDeltas, h]

theorem decodeDeltas_escape_short0 (marker : Fin 256) (last r : Nat)
    (h : marker.val = 0) : decodeDeltas [marker] last (r + 1) = [] := by
  simp [decodeDeltas, h]

theorem decodeDeltas_escape_short1 (marker b0 : Fin 256) (last r : Nat)
    (h : marker.val = 0) : decodeDeltas [marker, b0] last (r + 1) = [] := by
  simp [decodeDeltas, h]

theorem decodeDeltas_direct (marker : Fin 256) (rest : List (Fin 256))
    (last r : Nat) (h : marker.val ≠ 0) :
    decodeDeltas (marker :: rest) last (r + 1) =
      ((last + marker.val) % 2 ^ 32) ::
        decodeDeltas rest ((last + marker.val) % 2 ^ 32) r := by
  match rest with
  | [] => simp [decodeDeltas, h]
  | [b0] => simp [decodeDeltas, h]
  | b0 :: b1 :: rest2 => simp [decodeDeltas, h]

/-! ### Lemmas about the delta decoder -/

theorem decodeDeltas_length_le :
    ∀ (r : Nat) (data : List (Fin 256)) (last : Nat),
      (decodeDeltas data last r).length ≤ r := by
  intro r
  induction r with
  | zero => intro data last; simp [decodeDeltas_zero]
  | succ r ih =>
    intro data last
    cases data with
    | nil => simp [decodeDeltas_nil]
    | cons marker rest =>
      by_cases h0 : marker.val = 0
      · cases rest with
        | nil => simp [decodeDeltas_escape_short0 _ _ _ h0]
        | cons b0 rest1 =>
          cases rest1 with
          | nil => simp [decodeDeltas_escape_short1 _ _ _ _ h0]
          | cons b1 rest2 =>
            rw [decodeDeltas_escape _ _ _ _ _ _ h0]
            simpa using ih _ _
      · rw [decodeDeltas_direct _ _ _ _ h0]
        simpa using ih _ _

theorem u16le_le (b0 b1 : Fin 256) : u16le b0 b1 ≤ 65535 := by
  have h0 := b0.isLt
  have h1 := b1.isLt
  simp only [u16le]
  omega

theorem decodeDeltas_chain_bound :
    ∀ (r : Nat) (data : List (Fin 256)) (last : Nat),
      last + 65535 * r < 2 ^ 32 →
      List.Chain (· ≤ ·) last (decodeDeltas data last r) ∧
        ∀ v ∈ decodeDeltas data last r, v ≤ last + 65535 * r := by
  intro r
  induction r with
  | zero =>
    intro data last _
    simp [decodeDeltas_zero]
  | succ r ih =>
    intro data last hb
    have hmul : 65535 * (r + 1) = 65535 * r + 65535 := by ring
    have step : ∀ (d : Nat) (tail : List (Fin 256)), d ≤ 65535 →
        List.Chain (· ≤ ·) last
          (((last + d) % 2 ^ 32) :: decodeDeltas tail ((last + d) % 2 ^ 32) r) ∧
        ∀ v ∈ ((last + d) % 2 ^ 32) :: decodeDeltas tail ((last + d) % 2 ^ 32) r,
          v ≤ last + 65535 * (r + 1) := by
      intro d tail hd
      have hlt : last + d < 2 ^ 32 := by omega
      rw [Nat.mod_eq_of_lt hlt]
      have hrec := ih tail (last + d) (by omega)
      refine ⟨List.Chain.cons (by omega) hrec.1, ?_⟩
      intro v hv
      rcases List.mem_cons.mp hv with h | h
      · omega
      · have := hrec.2 v h
        omega
    cases data with
    | nil => simp [decodeDeltas_nil]
    | cons marker rest =>
      by_cases h0 : marker.val = 0
      · cases rest with
        | nil => simp [decodeDeltas_escape_short0 _ _ _ h0]
        | cons b0 rest1 =>
          cases rest1 with
          | nil => simp [decodeDeltas_escape_short1 _ _ _ _ h0]
          | cons b1 rest2 =>
            rw [decodeDeltas_escape _ _ _ _ _ _ h0]
            exact step (u16le b0 b1) rest2 (u16le_le b0 b1)
      · have hm : marker.val ≤ 65535 := le_trans (Nat.le_of_lt marker.isLt) (by omega)
        rw [decodeDeltas_direct _ _ _ _ h0]
        exact step marker.val rest hm

theorem decompress_sorted (d : List (Fin 256)) :
    List.Sorted (· ≤ ·) (decompress_house_numbers d) := by
  match d with
  | [] => simp [decompress_house_numbers]
  | [b0] => simp [decompress_house_numbers]
  | b0 :: b1 :: rest =>
    simp only [decompress_house_numbers]
    by_cases hlen : u16le b0 b1 = 0
    · simp [hlen]
    · simp only [hlen, if_neg, not_false_iff]
      match rest with
      | [] => simp
      | [c0] => simp
      | c0 :: c1 :: rest2 =>
        have hfirst := u16le_le c0 c1
        have hcount := u16le_le b0 b1
        have hb : u16le c0 c1 + 65535 * (u16le b0 b1 - 1) < 2 ^ 32 := by
          have : 65535 * (u16le b0 b1 - 1) ≤ 65535 * 65534 :=
            Nat.mul_le_mul_left _ (by omega)
          omega
        have h := decodeDeltas_chain_bound (u16le b0 b1 - 1) rest2 (u16le c0 c1) hb
        exact List.chain_iff_pairwise.mp h.1

theorem decompress_mem_le (d : List (Fin 256)) :
    ∀ v ∈ decompress_house_numbers d, v ≤ 65535 + 65534 * 65535 := by
  match d with
  | [] => simp [decompress_house_numbers]
  | [b0] => simp [decompress_house_numbers]
  | b0 :: b1 :: rest =>
    simp only [decompress_house_numbers]
    by_cases hlen : u16le b0 b1 = 0
    · simp [hlen]
    · simp only [hlen, if_neg, not_false_iff]
      match rest with
      | [] => simp
      | [c0] => simp
      | c0 :: c1 :: rest2 =>
        have hfirst := u16le_le c0 c1
        have hcount := u16le_le b0 b1
        have hmul : 65535 * (u16le b0 b1 - 1) ≤ 65535 * 65534 :=
          Nat.mul_le_mul_left _ (by omega)
        have hb : u16le c0 c1 + 65535 * (u16le b0 b1 - 1) < 2 ^ 32 := by omega
        have h := decodeDeltas_chain_bound (u16le b0 b1 - 1) rest2 (u16le c0 c1) hb
        intro v hv
        rcases List.mem_cons.mp hv with rfl | hmem
        · omega
        · have := h.2 v hmem
          omega

theorem decodeDeltas_append :
    ∀ (r : Nat) (data extra : List (Fin 256)) (last : Nat),
      decodeDeltas data last r <+: decodeDeltas (data ++ extra) last r := by
  intro r
  induction r with
  | zero =>
    intro data extra last
    simp [decodeDeltas_zero]
  | succ r ih =>
    intro data extra last
    cases data with
    | nil => simp [decodeDeltas_nil]
    | cons marker rest =>
      by_cases h0 : marker.val = 0
      · cases rest with
        | nil =>
          rw [decodeDeltas_escape_short0 _ _ _ h0]
          exact List.nil_prefix
        | cons b0 rest1 =>
          cases rest1 with
          | nil =>
            rw [decodeDeltas_escape_short1 _ _ _ _ h0]
            exact List.nil_prefix
          | cons b1 rest2 =>
            rw [List.cons_append, List.cons_append, List.cons_append,
              decodeDeltas_escape _ _ _ _ _ _ h0, decodeDeltas_escape _ _ _ _ _ _ h0]
            exact (List.prefix_cons_inj _).mpr (ih rest2 extra _)
      · rw [List.cons_append, decodeDeltas_direct _ _ _ _ h0,
          decodeDeltas_direct _ _ _ _ h0]
        exact (List.prefix_cons_inj _).mpr (ih rest extra _)

/-! ### Binary search on sorted lists finds exactly the members -/

theorem sorted_getD_mono {xs : List Nat} (hs : List.Sorted (· ≤ ·) xs) {i j : Nat}
    (hij : i ≤ j) (hj : j < xs.length) : xs.getD i 0 ≤ xs.getD j 0 := by
  have hi : i < xs.length := lt_of_le_of_lt hij hj
  rw [List.getD_eq_getElem xs 0 hi, List.getD_eq_getElem xs 0 hj]
  rcases Nat.eq_or_lt_of_le hij with rfl | hlt
  · exact le_refl _
  · exact List.pairwise_iff_getElem.mp hs i j hi hj hlt

theorem bsearchLoop_spec {xs : List Nat} {t : Nat} (hs : List.Sorted (· ≤ ·) xs) :
    ∀ (fuel size base : Nat), 1 ≤ size → size ≤ fuel → base + size ≤ xs.length →
      base ≤ bsearchLoop xs t fuel base size ∧
      bsearchLoop xs t fuel base size < base + size ∧
      ((∃ j, base ≤ j ∧ j < base + size ∧ xs.getD j 0 = t) →
        xs.getD (bsearchLoop xs t fuel base size) 0 = t) := by
  intro fuel
  induction fuel with
  | zero => intro size base h1 h2 _; omega
  | succ fuel ih =>
    intro size base h1 h2 hlen
    by_cases hsz : 1 < size
    · have hhalf1 : 1 ≤ size / 2 := Nat.one_le_div_iff (by omega) |>.mpr (by omega)
      have hhalf2 : size / 2 < size := Nat.div_lt_self (by omega) (by omega)
      have h2half : 2 * (size / 2) ≤ size := by omega
      rw [bsearchLoop, if_pos hsz]
      by_cases hcmp : t < xs.getD (base + size / 2) 0
      · rw [if_pos hcmp]
        have hrec := ih (size - size / 2) base (by omega) (by omega) (by omega)
        refine ⟨hrec.1, by omega, fun hex => hrec.2.2 ?_⟩
        obtain ⟨j, hj1, hj2, hj3⟩ := hex
        refine ⟨j, hj1, ?_, hj3⟩
        by_contra hge
        have hmid : base + size / 2 ≤ j := by omega
        have := sorted_getD_mono hs hmid (by omega)
        rw [hj3] at this
        omega
      · rw [if_neg hcmp]
        have hrec := ih (size - size / 2) (base + size / 2) (by omega) (by omega)
          (by omega)
        refine ⟨by omega, by omega, fun hex => hrec.2.2 ?_⟩
        obtain ⟨j, hj1, hj2, hj3⟩ := hex
        by_cases hge : base + size / 2 ≤ j
        · exact ⟨j, hge, by omega, hj3⟩
        · have hle : j ≤ base + size / 2 := by omega
          have hup := sorted_getD_mono hs hle (by omega)
          rw [hj3] at hup
          have : xs.getD (base + size / 2) 0 = t := by omega
          exact ⟨base + size / 2, le_refl _, by omega, this⟩
    · rw [bsearchLoop, if_neg hsz]
      have hsz1 : size = 1 := by omega
      refine ⟨le_refl _, by omega, fun hex => ?_⟩
      obtain ⟨j, hj1, hj2, hj3⟩ := hex
      have : j = base := by omega
      rw [this] at hj3
      exact hj3

theorem binary_search_iff {xs : List Nat} (hs : List.Sorted (· ≤ ·) xs) (t : Nat) :
    binary_search_is_ok xs t = true ↔ t ∈ xs := by
  by_cases hempty : xs.length = 0
  · rw [List.length_eq_zero] at hempty
    subst hempty
    simp [binary_search_is_ok]
  · have hpos : 1 ≤ xs.length := by omega
    have hspec := @bsearchLoop_spec xs t hs xs.length xs.length 0 hpos (le_refl _)
      (by omega)
    rw [binary_search_is_ok, if_neg hempty]
    have hblt : bsearchLoop xs t xs.length 0 xs.length < xs.length := by
      have := hspec.2.1
      omega
    constructor
    · intro h
      have heq : xs.getD (bsearchLoop xs t xs.length 0 xs.length) 0 = t :=
        beq_iff_eq.mp h
      rw [List.getD_eq_getElem xs 0 hblt] at heq
      exact heq ▸ List.getElem_mem hblt
    · intro hmem
      obtain ⟨i, hi, hival⟩ := List.mem_iff_getElem.mp hmem
      have heq : xs.getD (bsearchLoop xs t xs.length 0 xs.length) 0 = t := by
        refine hspec.2.2 ⟨i, Nat.zero_le _, by omega, ?_⟩
        rw [List.getD_eq_getElem xs 0 hi]
        exact hival
      exact beq_iff_eq.mpr heq

/-! ### Splitting keys at the delimiter -/

theorem splitPipe_ne_nil : ∀ l : List Char, splitPipe l ≠ [] := by
  intro l
  cases l with
  | nil => simp [splitPipe]
  | cons c rest =>
    by_cases hc : c = '|'
    · simp [splitPipe, hc]
    · cases h : splitPipe rest with
      | nil => simp [splitPipe, hc, h]
      | cons p ps => simp [splitPipe, hc, h]

theorem splitPipe_no_pipe : ∀ {a : List Char}, '|' ∉ a → splitPipe a = [a] := by
  intro a
  induction a with
  | nil => intro _; rfl
  | cons c rest ih =>
    intro hmem
    have hc : c ≠ '|' := fun h => hmem (h ▸ List.mem_cons_self c rest)
    have hrest : '|' ∉ rest := fun h => hmem (List.mem_cons_of_mem c h)
    simp [splitPipe, hc, ih hrest]

theorem splitPipe_append : ∀ {a : List Char} (t : List Char), '|' ∉ a →
    splitPipe (a ++ '|' :: t) = a :: splitPipe t := by
  intro a
  induction a with
  | nil => intro t _; simp [splitPipe]
  | cons c rest ih =>
    intro t hmem
    have hc : c ≠ '|' := fun h => hmem (h ▸ List.mem_cons_self c rest)
    have hrest : '|' ∉ rest := fun h => hmem (List.mem_cons_of_mem c h)
    simp [splitPipe, hc, ih t hrest]

theorem splitPipe_eq_one : ∀ {t y : List Char}, splitPipe t = [y] →
    '|' ∉ y ∧ t = y := by
  intro t
  induction t with
  | nil =>
    intro y h
    simp only [splitPipe, List.cons.injEq] at h
    exact ⟨by simp [← h.1], h.1⟩
  | cons c rest ih =>
    intro y h
    by_cases hc : c = '|'
    · rw [splitPipe, if_pos hc] at h
      simp only [List.cons.injEq] at h
      exact absurd h.2 (splitPipe_ne_nil rest)
    · rw [splitPipe, if_neg hc] at h
      cases hsp : splitPipe rest with
      | nil => exact absurd hsp (splitPipe_ne_nil rest)
      | cons p ps =>
        rw [hsp] at h
        simp only [List.cons.injEq] at h
        obtain ⟨rfl, hps⟩ := h
        have hrest : splitPipe rest = [p] := by rw [hsp, hps]
        obtain ⟨hp, hteq⟩ := ih hrest
        refine ⟨?_, by rw [hteq]⟩
        simp only [List.mem_cons, not_or]
        exact ⟨fun h => hc h.symm, hp⟩

theorem splitPipe_eq_two : ∀ {t x y : List Char}, splitPipe t = [x, y] →
    '|' ∉ x ∧ '|' ∉ y ∧ t = x ++ '|' :: y := by
  intro t
  induction t with
  | nil =>
    intro x y h
    simp [splitPipe] at h
  | cons c rest ih =>
    intro x y h
    by_cases hc : c = '|'
    · rw [splitPipe, if_pos hc] at h
      simp only [List.cons.injEq] at h
      obtain ⟨hx, hrest⟩ := h
      obtain ⟨hy, hteq⟩ := splitPipe_eq_one hrest
      subst hc
      exact ⟨by simp [← hx], hy, by simp [← hx, hteq]⟩
    · rw [splitPipe, if_neg hc] at h
      cases hsp : splitPipe rest with
      | nil => exact absurd hsp (splitPipe_ne_nil rest)
      | cons p ps =>
        rw [hsp] at h
        simp only [List.cons.injEq] at h
        obtain ⟨rfl, hps⟩ := h
        have hrest : splitPipe rest = [p, y] := by rw [hsp, hps]
        obtain ⟨hp, hy, hteq⟩ := ih hrest
        refine ⟨?_, hy, by simp [hteq]⟩
        simp only [List.mem_cons, not_or]
        exact ⟨fun h => hc h.symm, hp⟩

/-! ### The candidate loop -/

theorem keyLt_asymm {a b : List Char} (h : keyLt a b) : ¬ keyLt b a :=
  (List.Lex.isAsymm (· < ·)).asymm a b h

theorem findFirstMatch_isSome_iff :
    ∀ (cands : List (List Char × Nat)) (pu : List Char) (n : Nat)
      (hd : List (Fin 256)),
      (findFirstMatch pu n hd cands).isSome = true ↔
        ∃ kv ∈ cands, matchesCand n hd kv := by
  intro cands
  induction cands with
  | nil => intro pu n hd; simp [findFirstMatch]
  | cons kv rest ih =>
    intro pu n hd
    obtain ⟨key, off⟩ := kv
    by_cases hbin :
        binary_search_is_ok (decompress_house_numbers (hd.drop off)) n = true
    · by_cases hsplit : (splitPipe key).length = 3
      · simp only [findFirstMatch, hbin, if_pos, hsplit, if_true, Option.isSome_some,
          true_iff]
        exact ⟨(key, off), List.mem_cons_self _ _, hbin, hsplit⟩
      · rw [findFirstMatch, if_pos hbin, if_neg hsplit]
        rw [ih pu n hd]
        constructor
        · rintro ⟨kv, hmem, hm⟩
          exact ⟨kv, List.mem_cons_of_mem _ hmem, hm⟩
        · rintro ⟨kv, hmem, hm⟩
          rcases List.mem_cons.mp hmem with rfl | hmem'
          · exact absurd hm.2 hsplit
          · exact ⟨kv, hmem', hm⟩
    · rw [findFirstMatch, if_neg hbin]
      rw [ih pu n hd]
      constructor
      · rintro ⟨kv, hmem, hm⟩
        exact ⟨kv, List.mem_cons_of_mem _ hmem, hm⟩
      · rintro ⟨kv, hmem, hm⟩
        rcases List.mem_cons.mp hmem with rfl | hmem'
        · exact absurd hm.1 hbin
        · exact ⟨kv, hmem', hm⟩

theorem findFirstMatch_skip (pu : List Char) (n : Nat) (hd : List (Fin 256))
    (key : List Char) (off : Nat) (rest : List (List Char × Nat))
    (hbin : binary_search_is_ok (decompress_house_numbers (hd.drop off)) n = true)
    (hsplit : (splitPipe key).length ≠ 3) :
    findFirstMatch pu n hd ((key, off) :: rest) = findFirstMatch pu n hd rest := by
  rw [findFirstMatch, if_pos hbin, if_neg hsplit]

theorem findFirstMatch_first :
    ∀ (cands : List (List Char × Nat)) (pu : List Char) (n : Nat)
      (hd : List (Fin 256)) (r : LookupResult),
      List.Pairwise (fun a b => keyLt a.1 b.1) cands →
      findFirstMatch pu n hd cands = some r →
      ∃ key off, (key, off) ∈ cands ∧ matchesCand n hd (key, off) ∧
        (∀ key' off', (key', off') ∈ cands → matchesCand n hd (key', off') →
          ¬ keyLt key' key) ∧
        r = { postcode := pu, straat := (splitPipe key).getD 1 [],
              huisnummer := n, woonplaats := (splitPipe key).getD 2 [] } := by
  intro cands
  induction cands with
  | nil => intro pu n hd r _ h; simp [findFirstMatch] at h
  | cons kv rest ih =>
    intro pu n hd r hpw hsome
    obtain ⟨key, off⟩ := kv
    have hpw_rest := List.Pairwise.of_cons hpw
    have hpw_head : ∀ kv' ∈ rest, keyLt key kv'.1 :=
      fun kv' h' => List.rel_of_pairwise_cons hpw h'
    by_cases hbin :
        binary_search_is_ok (decompress_house_numbers (hd.drop off)) n = true
    · by_cases hsplit : (splitPipe key).length = 3
      · rw [findFirstMatch, if_pos hbin, if_pos hsplit] at hsome
        refine ⟨key, off, List.mem_cons_self _ _, ⟨hbin, hsplit⟩, ?_, ?_⟩
        · intro key' off' hmem _hm
          rcases List.mem_cons.mp hmem with heq | hmem'
          · have : key' = key := congrArg Prod.fst heq
            subst this
            exact fun hlt => keyLt_asymm hlt hlt
          · have hlt : keyLt key key' := hpw_head (key', off') hmem'
            exact keyLt_asymm hlt
        · exact (Option.some.injEq _ _).mp hsome.symm
      · rw [findFirstMatch, if_pos hbin, if_neg hsplit] at hsome
        obtain ⟨k, o, hmem, hm, hmin, hr⟩ := ih pu n hd r hpw_rest hsome
        refine ⟨k, o, List.mem_cons_of_mem _ hmem, hm, ?_, hr⟩
        intro key' off' hmem' hm'
        rcases List.mem_cons.mp hmem' with heq | hmem''
        · have : key' = key := congrArg Prod.fst heq
          subst this
          exact absurd hm'.2 hsplit
        · exact hmin key' off' hmem'' hm'
    · rw [findFirstMatch, if_neg hbin] at hsome
      obtain ⟨k, o, hmem, hm, hmin, hr⟩ := ih pu n hd r hpw_rest hsome
      refine ⟨k, o, List.mem_cons_of_mem _ hmem, hm, ?_, hr⟩
      intro key' off' hmem' hm'
      rcases List.mem_cons.mp hmem' with heq | hmem''
      · have : off' = off := congrArg Prod.snd heq
        have hk : key' = key := congrArg Prod.fst heq
        subst this; subst hk
        exact absurd hm'.1 hbin
      · exact hmin key' off' hmem'' hm'

/-! ### Equation lemmas for the whole decoder -/

theorem decompress_zero_count (b0 b1 : Fin 256) (rest : List (Fin 256))
    (h : u16le b0 b1 = 0) :
    decompress_house_numbers (b0 :: b1 :: rest) = [] := by
  simp [decompress_house_numbers, h]

theorem decompress_cons (b0 b1 c0 c1 : Fin 256) (rest2 : List (Fin 256))
    (h : u16le b0 b1 ≠ 0) :
    decompress_house_numbers (b0 :: b1 :: c0 :: c1 :: rest2) =
      u16le c0 c1 :: decodeDeltas rest2 (u16le c0 c1) (u16le b0 b1 - 1) := by
  simp [decompress_house_numbers, h]

/-! ### Little-endian fields -/

theorem natToLE_length : ∀ (w n : Nat), (natToLE w n).length = w := by
  intro w
  induction w with
  | zero => intro n; rfl
  | succ w ih => intro n; simp [natToLE, ih]

theorem leVal_cons (b : Fin 256) (bs : List (Fin 256)) :
    leVal (b :: bs) = leVal bs * 256 + b.val := rfl

theorem leVal_natToLE : ∀ (w n : Nat), n < 256 ^ w → leVal (natToLE w n) = n := by
  intro w
  induction w with
  | zero =>
    intro n h
    have : n = 0 := by simpa using h
    simp [this, natToLE, leVal]
  | succ w ih =>
    intro n h
    have hdiv : n / 256 < 256 ^ w := by
      rw [Nat.div_lt_iff_lt_mul (by omega)]
      calc n < 256 ^ (w + 1) := h
        _ = 256 ^ w * 256 := by ring
    rw [natToLE, leVal_cons, ih (n / 256) hdiv]
    show n / 256 * 256 + n % 256 = n
    omega

theorem natToLE_two (n : Nat) :
    natToLE 2 n = [⟨n % 256, Nat.mod_lt _ (by omega)⟩,
      ⟨n / 256 % 256, Nat.mod_lt _ (by omega)⟩] := rfl

/-! ### Round trip of the integer-list codec -/

theorem sum_le_length_mul : ∀ (l : List Nat) (m : Nat), (∀ x ∈ l, x ≤ m) →
    l.sum ≤ l.length * m := by
  intro l
  induction l with
  | nil => intro m _; simp
  | cons x xs ih =>
    intro m h
    have hx : x ≤ m := h x (List.mem_cons_self _ _)
    have hxs := ih m fun y hy => h y (List.mem_cons_of_mem _ hy)
    simp only [List.sum_cons, List.length_cons]
    calc x + xs.sum ≤ m + xs.length * m := Nat.add_le_add hx hxs
      _ = (xs.length + 1) * m := by ring

theorem decodeDeltas_encode :
    ∀ (deltas : List Nat) (last : Nat), (∀ d ∈ deltas, d ≤ 65535) →
      last + deltas.sum < 2 ^ 32 →
      decodeDeltas (deltas.map encodeDelta).flatten last deltas.length =
        cumSums last deltas := by
  intro deltas
  induction deltas with
  | nil => intro last _ _; simp [cumSums, decodeDeltas_zero]
  | cons d ds ih =>
    intro last hbound hsum
    have hd : d ≤ 65535 := hbound d (List.mem_cons_self _ _)
    have hds : ∀ x ∈ ds, x ≤ 65535 := fun x hx => hbound x (List.mem_cons_of_mem _ hx)
    rw [List.sum_cons] at hsum
    have hlt : last + d < 2 ^ 32 := by omega
    rw [List.map_cons, List.flatten_cons, List.length_cons]
    by_cases hcase : 1 ≤ d ∧ d ≤ 255
    · have hmod : d % 256 = d := Nat.mod_eq_of_lt (by omega)
      rw [encodeDelta, if_pos hcase, List.singleton_append,
        decodeDeltas_direct _ _ _ _ (by simp [hmod]; omega)]
      simp only [hmod, Nat.mod_eq_of_lt hlt]
      rw [cumSums, ih (last + d) hds (by omega)]
    · rw [encodeDelta, if_neg hcase, natToLE_two, List.cons_append, List.cons_append,
        List.singleton_append, decodeDeltas_escape _ _ _ _ _ _ rfl]
      have hu : u16le ⟨d % 256, Nat.mod_lt _ (by omega)⟩
          ⟨d / 256 % 256, Nat.mod_lt _ (by omega)⟩ = d := by
        simp only [u16le]
        omega
      rw [hu, Nat.mod_eq_of_lt hlt, cumSums, ih (last + d) hds (by omega)]

theorem encodeList_round (first : Nat) (deltas : List Nat) (h1 : first ≤ 65535)
    (h2 : ∀ d ∈ deltas, d ≤ 65535) (h3 : deltas.length + 1 ≤ 65535) :
    decompress_house_numbers (encodeList first deltas) =
      first :: cumSums first deltas := by
  have hsum : deltas.sum ≤ deltas.length * 65535 := sum_le_length_mul deltas 65535 h2
  have hsum2 : first + deltas.sum < 2 ^ 32 := by
    have : deltas.length * 65535 ≤ 65534 * 65535 :=
      Nat.mul_le_mul_right _ (by omega)
    omega
  rw [encodeList, natToLE_two, natToLE_two]
  simp only [List.cons_append, List.nil_append]
  have hcount : u16le ⟨(deltas.length + 1) % 256, Nat.mod_lt _ (by omega)⟩
      ⟨(deltas.length + 1) / 256 % 256, Nat.mod_lt _ (by omega)⟩ =
        deltas.length + 1 := by
    simp only [u16le]
    omega
  have hfirst : u16le ⟨first % 256, Nat.mod_lt _ (by omega)⟩
      ⟨first / 256 % 256, Nat.mod_lt _ (by omega)⟩ = first := by
    simp only [u16le]
    omega
  rw [decompress_cons _ _ _ _ _ (by rw [hcount]; omega), hcount, hfirst]
  simp only [Nat.add_sub_cancel]
  rw [decodeDeltas_encode deltas first h2 hsum2]

/-! ### Gap lists -/

theorem deltasOf_length : ∀ (l : List Nat) (p : Nat),
    (deltasOf p l).length = l.length := by
  intro l
  induction l with
  | nil => intro p; rfl
  | cons v vs ih => intro p; simp [deltasOf, ih v]

theorem deltasOf_le : ∀ (l : List Nat) (p m : Nat), (∀ v ∈ l, v ≤ m) →
    ∀ d ∈ deltasOf p l, d ≤ m := by
  intro l
  induction l with
  | nil => intro p m _ d hd; simp [deltasOf] at hd
  | cons v vs ih =>
    intro p m hle d hd
    rw [deltasOf] at hd
    rcases List.mem_cons.mp hd with rfl | hd'
    · exact le_trans (Nat.sub_le v p) (hle v (List.mem_cons_self _ _))
    · exact ih v m (fun x hx => hle x (List.mem_cons_of_mem _ hx)) d hd'

theorem cumSums_deltasOf : ∀ (l : List Nat) (p : Nat),
    List.Chain (· ≤ ·) p l → cumSums p (deltasOf p l) = l := by
  intro l
  induction l with
  | nil => intro p _; rfl
  | cons v vs ih =>
    intro p hch
    cases hch with
    | cons hpv hch' =>
      rw [deltasOf, cumSums, Nat.add_sub_cancel' hpv, ih v hch']

/-! ### The lookup iff, for delimiter-free postal codes and fields -/

theorem lookup_eq_findFirstMatch (data : PostcodeData) (p : List Char) (n : Nat) :
    lookup_address_fst data p n =
      findFirstMatch (to_uppercase p) n data.house_data
        (searchPrefixEntries data.fst_map (to_uppercase p ++ ['|'])) := rfl

theorem lookup_isSome_iff (data : PostcodeData) (p : List Char) (n : Nat)
    (hU : '|' ∉ to_uppercase p) :
    (lookup_address_fst data p n).isSome = true ↔
      ∃ s c off, '|' ∉ s ∧ '|' ∉ c ∧
        (to_uppercase p ++ '|' :: (s ++ '|' :: c), off) ∈ data.fst_map ∧
        n ∈ decompress_house_numbers (data.house_data.drop off) := by
  rw [lookup_eq_findFirstMatch, findFirstMatch_isSome_iff]
  constructor
  · rintro ⟨⟨key, off⟩, hmem, hbin, hsplit⟩
    obtain ⟨hmem_map, hpre⟩ := List.mem_filter.mp hmem
    dsimp only at hbin hsplit hpre
    obtain ⟨t, ht⟩ := List.isPrefixOf_iff_prefix.mp hpre
    have hkey : key = to_uppercase p ++ '|' :: t := by
      rw [← ht]; simp
    rw [hkey, splitPipe_append t hU] at hsplit
    rw [List.length_cons] at hsplit
    have h2 : (splitPipe t).length = 2 := by omega
    obtain ⟨x, y, hxy⟩ : ∃ x y, splitPipe t = [x, y] := by
      match hsp : splitPipe t with
      | [] => rw [hsp] at h2; simp at h2
      | [x] => rw [hsp] at h2; simp at h2
      | [x, y] => exact ⟨x, y, rfl⟩
      | x :: y :: z :: zs => rw [hsp] at h2; simp at h2
    obtain ⟨hx, hy, hteq⟩ := splitPipe_eq_two hxy
    refine ⟨x, y, off, hx, hy, ?_, ?_⟩
    · rw [← hteq, ← hkey]
      exact hmem_map
    · exact (binary_search_iff (decompress_sorted _) n).mp hbin
  · rintro ⟨s, c, off, hs, hc, hmem, hn⟩
    refine ⟨(to_uppercase p ++ '|' :: (s ++ '|' :: c), off), ?_, ?_, ?_⟩
    · refine List.mem_filter.mpr ⟨hmem, ?_⟩
      refine List.isPrefixOf_iff_prefix.mpr ⟨s ++ '|' :: c, ?_⟩
      simp
    · exact (binary_search_iff (decompress_sorted _) n).mpr hn
    · rw [splitPipe_append _ hU, splitPipe_append _ hs, splitPipe_no_pipe hc]
      rfl

/-! ### Claims -/

/-- C1 (counterexample): the claimed iff fails as stated.  With the dataset
holding the single well-formed key `A|B|C` (list `[5]` at offset 0) and the
query `p = "A|B"`, `n = 5`, the code returns `Some` (the key splits into the
three parts `A`, `B`, `C` and matches), yet no key of the form
`UPPER(p) ++ "|" ++ street ++ "|" ++ city` exists in the dataset, because
`UPPER(p) = "A|B"` already contains the delimiter. -/
theorem C1_counterexample :
    ¬ ((lookup_address_fst ⟨[(['A', '|', 'B', '|', 'C'], 0)], [1, 0, 5, 0]⟩
          ['A', '|', 'B'] 5).isSome = true ↔
        ∃ s c off,
          (to_uppercase ['A', '|', 'B'] ++ '|' :: (s ++ '|' :: c), off) ∈
            ([(['A', '|', 'B', '|', 'C'], 0)] : List (List Char × Nat)) ∧
          5 ∈ decompress_house_numbers
            (([1, 0, 5, 0] : List (Fin 256)).drop off)) := by
  intro h
  have hsome : (lookup_address_fst ⟨[(['A', '|', 'B', '|', 'C'], 0)], [1, 0, 5, 0]⟩
      ['A', '|', 'B'] 5).isSome = true := by decide
  obtain ⟨s, c, off, hmem, _⟩ := h.mp hsome
  have hpair := List.mem_singleton.mp hmem
  have hkey : to_uppercase ['A', '|', 'B'] ++ '|' :: (s ++ '|' :: c) =
      ['A', '|', 'B', '|', 'C'] := congrArg Prod.fst hpair
  have hUeq : to_uppercase ['A', '|', 'B'] = ['A', '|', 'B'] := by decide
  rw [hUeq] at hkey
  have hcount := congrArg (List.count '|') hkey
  simp [List.count_append, List.count_cons] at hcount

/-- C1 (amended): provided `UPPER(p)` contains no delimiter and `street` and
`city` range over delimiter-free strings, `lookup(p, n)` returns `Some` iff
the dataset contains the key `UPPER(p) ++ "|" ++ street ++ "|" ++ city`
whose decoded integer list contains `n` exactly; otherwise `None`. -/
theorem C1_lookup_iff_amended (data : PostcodeData) (p : List Char) (n : Nat)
    (hU : '|' ∉ to_uppercase p) :
    (lookup_address_fst data p n).isSome = true ↔
      ∃ s c off, '|' ∉ s ∧ '|' ∉ c ∧
        (to_uppercase p ++ '|' :: (s ++ '|' :: c), off) ∈ data.fst_map ∧
        n ∈ decompress_house_numbers (data.house_data.drop off) :=
  lookup_isSome_iff data p n hU

/-- C1 (witness): the amended iff applied to the concrete dataset holding
`1|MN|CT` with house list `[3]`. -/
theorem C1_witness :
    (lookup_address_fst ⟨[(['1', '|', 'M', 'N', '|', 'C', 'T'], 0)], [1, 0, 3, 0]⟩
      ['1'] 3).isSome = true :=
  (C1_lookup_iff_amended ⟨[(['1', '|', 'M', 'N', '|', 'C', 'T'], 0)], [1, 0, 3, 0]⟩
      ['1'] 3 (by decide)).mpr
    ⟨['M', 'N'], ['C', 'T'], 0, by decide, by decide, by decide, by decide⟩

/-- C2: for every well-formed encoded list (count, first, delta stream as per
the marker layout: `0` escapes to a 2-byte little-endian delta, `1..255` is
the delta itself), decode returns the cumulative sums
`[first, first + d₁, first + d₁ + d₂, ...]`. -/
theorem C2_delta_stream_roundtrip (first : Nat) (deltas : List Nat)
    (h1 : first ≤ 65535) (h2 : ∀ d ∈ deltas, d ≤ 65535)
    (h3 : deltas.length + 1 ≤ 65535) :
    decompress_house_numbers (encodeList first deltas) =
      first :: cumSums first deltas :=
  encodeList_round first deltas h1 h2 h3

/-- C2 (witness): the round trip at count 3, first 5, deltas `[2, 300]`
(one direct marker, one escaped wide delta). -/
theorem C2_witness :
    decompress_house_numbers (encodeList 5 [2, 300]) = 5 :: cumSums 5 [2, 300] :=
  C2_delta_stream_roundtrip 5 [2, 300] (by decide) (by decide) (by decide)

/-- C3: decode is total over arbitrary byte slices; its output length is at
most the declared count, a zero count or an input shorter than 2 bytes gives
the empty list, and a truncated stream yields a prefix of (the partial list
decoded so far of) what any extension of the stream would decode to. -/
theorem C3_decode_total_lenient (d extra : List (Fin 256)) :
    (decompress_house_numbers d).length ≤ declared_count d ∧
    (declared_count d = 0 → decompress_house_numbers d = []) ∧
    (d.length < 2 → decompress_house_numbers d = []) ∧
    decompress_house_numbers d <+: decompress_house_numbers (d ++ extra) := by
  refine ⟨?_, ?_, ?_, ?_⟩
  · match d with
    | [] => simp [decompress_house_numbers, declared_count]
    | [b0] => simp [decompress_house_numbers, declared_count]
    | b0 :: b1 :: rest =>
      rw [declared_count]
      by_cases hlen : u16le b0 b1 = 0
      · rw [decompress_zero_count _ _ _ hlen]
        simp
      · match rest with
        | [] => simp [decompress_house_numbers, hlen]
        | [c0] => simp [decompress_house_numbers, hlen]
        | c0 :: c1 :: rest2 =>
          rw [decompress_cons _ _ _ _ _ hlen, List.length_cons]
          have := decodeDeltas_length_le (u16le b0 b1 - 1) rest2 (u16le c0 c1)
          omega
  · intro h0
    match d with
    | [] => rfl
    | [b0] => rfl
    | b0 :: b1 :: rest =>
      rw [declared_count] at h0
      exact decompress_zero_count _ _ _ h0
  · intro hshort
    match d with
    | [] => rfl
    | [b0] => rfl
    | b0 :: b1 :: rest => simp at hshort; omega
  · match d with
    | [] =>
      rw [List.nil_append]
      exact List.nil_prefix
    | [b0] =>
      have : decompress_house_numbers [b0] = [] := rfl
      rw [this]
      exact List.nil_prefix
    | b0 :: b1 :: rest =>
      rw [List.cons_append, List.cons_append]
      by_cases hlen : u16le b0 b1 = 0
      · rw [decompress_zero_count _ _ _ hlen]
        exact List.nil_prefix
      · match rest with
        | [] =>
          have : decompress_house_numbers [b0, b1] = [] := by
            simp [decompress_house_numbers, hlen]
          rw [this]
          exact List.nil_prefix
        | [c0] =>
          have : decompress_house_numbers [b0, b1, c0] = [] := by
            simp [decompress_house_numbers, hlen]
          rw [this]
          exact List.nil_prefix
        | c0 :: c1 :: rest2 =>
          rw [List.cons_append, List.cons_append,
            decompress_cons _ _ _ _ _ hlen, decompress_cons _ _ _ _ _ hlen]
          exact (List.prefix_cons_inj _).mpr (decodeDeltas_append _ rest2 extra _)

/-- C3 (witness): the zero-count clause of the totality theorem at the
concrete input `[0x00, 0x00, 0x09]`. -/
theorem C3_witness :
    decompress_house_numbers ([0, 0, 9] : List (Fin 256)) = [] :=
  (C3_decode_total_lenient [0, 0, 9] []).2.1 (by decide)

/-- C4 (counterexample): the round-trip claim fails as stated for the full
strictly increasing list `[0, 1, ..., 65535]` of all 65536 values in `u16`
range: its count does not fit the layout's `u16` count field (65536 is
written as `0x0000`), so the encoding decodes to `[]`, not to the list. -/
theorem C4_counterexample :
    List.Sorted (· < ·) fullU16List ∧ (∀ v ∈ fullU16List, v ≤ 65535) ∧
      decompress_house_numbers (encode fullU16List) ≠ fullU16List := by
  refine ⟨?_, ?_, ?_⟩
  · rw [fullU16List, List.sorted_cons]
    refine ⟨?_, ?_⟩
    · intro b hb
      obtain ⟨a, _, rfl⟩ := List.mem_map.mp hb
      omega
    · exact List.pairwise_map.mpr
        ((List.pairwise_lt_range _).imp fun h => by omega)
  · intro v hv
    rw [fullU16List] at hv
    rcases List.mem_cons.mp hv with rfl | hv'
    · omega
    · obtain ⟨a, ha, rfl⟩ := List.mem_map.mp hv'
      have := List.mem_range.mp ha
      omega
  · have hlen : (deltasOf 0 ((List.range 65535).map (· + 1))).length = 65535 := by
      rw [deltasOf_length, List.length_map, List.length_range]
    rw [fullU16List, encode, encodeList, hlen, natToLE_two]
    simp only [List.cons_append, List.nil_append]
    rw [decompress_zero_count _ _ _ (by decide)]
    simp

/-- C4 (amended): for every strictly increasing list of at most 65535 values
in `u16` range (so that its count fits the layout's `u16` count field),
`decode (encode list) = list`, the encoder choosing a single-byte delta for
gaps in `1..255` and the escaped two-byte form otherwise. -/
theorem C4_roundtrip_amended (vs : List Nat) (hsort : List.Sorted (· < ·) vs)
    (hle : ∀ v ∈ vs, v ≤ 65535) (hlen : vs.length ≤ 65535) :
    decompress_house_numbers (encode vs) = vs := by
  match vs with
  | [] => decide
  | v :: rest =>
    rw [encode]
    have hv : v ≤ 65535 := hle v (List.mem_cons_self _ _)
    have hds : ∀ d ∈ deltasOf v rest, d ≤ 65535 :=
      deltasOf_le rest v 65535 fun x hx => hle x (List.mem_cons_of_mem _ hx)
    have hlen' : (deltasOf v rest).length + 1 ≤ 65535 := by
      rw [deltasOf_length]
      simpa using hlen
    rw [encodeList_round v _ hv hds hlen']
    have hch : List.Chain (· ≤ ·) v rest :=
      List.chain_iff_pairwise.mpr (hsort.imp fun h => le_of_lt h)
    rw [cumSums_deltasOf rest v hch]

/-- C4 (witness): the amended round trip at the spec's example list
`[1, 3, 5, 100]`. -/
theorem C4_witness :
    decompress_house_numbers (encode [1, 3, 5, 100]) = [1, 3, 5, 100] :=
  C4_roundtrip_amended [1, 3, 5, 100] (by decide) (by decide) (by decide)

/-- C5: when lookup returns `Some`, the result is built from the first
candidate (minimal in ascending byte order among prefix-matching keys — so
no later candidate is taken) whose decoded list binary-searches to `n` and
whose key splits into exactly three parts, with `postcode = UPPER(p)`,
`straat` the key's second part as stored, `huisnummer = n` as queried, and
`woonplaats` the key's third part as stored. -/
theorem C5_first_match (data : PostcodeData) (p : List Char) (n : Nat)
    (r : LookupResult)
    (hsorted : List.Pairwise (fun a b => keyLt a.1 b.1) data.fst_map)
    (hsome : lookup_address_fst data p n = some r) :
    ∃ key off,
      (key, off) ∈ searchPrefixEntries data.fst_map (to_uppercase p ++ ['|']) ∧
      matchesCand n data.house_data (key, off) ∧
      (∀ key' off',
        (key', off') ∈ searchPrefixEntries data.fst_map (to_uppercase p ++ ['|']) →
        matchesCand n data.house_data (key', off') → ¬ keyLt key' key) ∧
      r = { postcode := to_uppercase p, straat := (splitPipe key).getD 1 [],
            huisnummer := n, woonplaats := (splitPipe key).getD 2 [] } := by
  rw [lookup_eq_findFirstMatch] at hsome
  have hpw : List.Pairwise (fun a b => keyLt a.1 b.1)
      (searchPrefixEntries data.fst_map (to_uppercase p ++ ['|'])) :=
    List.Pairwise.sublist (List.filter_sublist _) hsorted
  exact findFirstMatch_first _ _ _ _ _ hpw hsome

/-- C5 (witness): the first-match description at the singleton dataset
`1|MN|CT` with house list `[3]` and query `("1", 3)`. -/
theorem C5_witness :
    ∃ key off,
      (key, off) ∈ searchPrefixEntries [(['1', '|', 'M', 'N', '|', 'C', 'T'], 0)]
        (to_uppercase ['1'] ++ ['|']) ∧
      matchesCand 3 ([1, 0, 3, 0] : List (Fin 256)) (key, off) ∧
      (∀ key' off',
        (key', off') ∈ searchPrefixEntries [(['1', '|', 'M', 'N', '|', 'C', 'T'], 0)]
          (to_uppercase ['1'] ++ ['|']) →
        matchesCand 3 ([1, 0, 3, 0] : List (Fin 256)) (key', off') →
        ¬ keyLt key' key) ∧
      ({ postcode := ['1'], straat := ['M', 'N'], huisnummer := 3,
         woonplaats := ['C', 'T'] } : LookupResult) =
        { postcode := to_uppercase ['1'], straat := (splitPipe key).getD 1 [],
          huisnummer := 3, woonplaats := (splitPipe key).getD 2 [] } :=
  C5_first_match ⟨[(['1', '|', 'M', 'N', '|', 'C', 'T'], 0)], [1, 0, 3, 0]⟩
    ['1'] 3 { postcode := ['1'], straat := ['M', 'N'], huisnummer := 3,
              woonplaats := ['C', 'T'] }
    (List.pairwise_singleton _ _) (by decide)

/-- C6: a candidate key whose decoded list matches the queried house number
but which does not split into exactly three parts is skipped, the loop
continuing with the remaining candidates — it never yields a result and
never aborts the lookup (the embedding is total, so no panic). -/
theorem C6_malformed_key_skipped (pu : List Char) (n : Nat)
    (hd : List (Fin 256)) (key : List Char) (off : Nat)
    (rest : List (List Char × Nat))
    (hbin : binary_search_is_ok (decompress_house_numbers (hd.drop off)) n = true)
    (hsplit : (splitPipe key).length ≠ 3) :
    findFirstMatch pu n hd ((key, off) :: rest) = findFirstMatch pu n hd rest :=
  findFirstMatch_skip pu n hd key off rest hbin hsplit

/-- C6 (witness): the two-part key `A|B`, matching house number 5, is
skipped (the lookup over just this candidate returns `none`). -/
theorem C6_witness :
    findFirstMatch [] 5 ([1, 0, 5, 0] : List (Fin 256)) [(['A', '|', 'B'], 0)] =
      findFirstMatch [] 5 ([1, 0, 5, 0] : List (Fin 256)) [] :=
  C6_malformed_key_skipped [] 5 [1, 0, 5, 0] ['A', '|', 'B'] 0 []
    (by decide) (by decide)

/-- C7: `lookup_batch` returns one result per query, in input order, each
equal to `lookup_address_fst` on that query's postal code and house number
against the same immutable dataset — entries do not interact. -/
theorem C7_lookup_batch_map (data : PostcodeData)
    (qs : List (List Char × Nat)) :
    (lookup_batch data qs).length = qs.length ∧
      ∀ i : Nat, (lookup_batch data qs)[i]? =
        (qs[i]?).map fun q => lookup_address_fst data q.1 q.2 := by
  refine ⟨by simp [lookup_batch], ?_⟩
  intro i
  simp [lookup_batch, List.getElem?_map]

theorem u64le_natToLE (n : Nat) (h : n < 2 ^ 64) : u64le (natToLE 8 n) = n := by
  rw [u64le, show (natToLE 8 n).take 8 = natToLE 8 n from by
    rw [← natToLE_length 8 n]; exact List.take_length _]
  exact leVal_natToLE 8 n (by norm_num at h ⊢; omega)

/-- C8: on a decompressed buffer laid out as
`[index_len le64][list_region_len le64][index segment][list region][junk]`,
the loader reads the two length fields, hands exactly the index segment to
the index deserializer and keeps exactly the list region; and when the
deserializer rejects the segment the loader returns nothing at all
(`none`, the panic of `.expect`), never a partially loaded structure. -/
theorem C8_loader_layout
    (parse : List (Fin 256) → Option (List (List Char × Nat)))
    (fstSeg houseSeg rest : List (Fin 256))
    (h1 : fstSeg.length < 2 ^ 64) (h2 : houseSeg.length < 2 ^ 64) :
    load_data parse (natToLE 8 fstSeg.length ++ natToLE 8 houseSeg.length ++
        fstSeg ++ houseSeg ++ rest) =
      (parse fstSeg).map fun m => { fst_map := m, house_data := houseSeg } := by
  have hAlen : (natToLE 8 fstSeg.length).length = 8 := natToLE_length _ _
  have hBlen : (natToLE 8 houseSeg.length).length = 8 := natToLE_length _ _
  have hABlen : (natToLE 8 fstSeg.length ++ natToLE 8 houseSeg.length).length = 16 := by
    rw [List.length_append, hAlen, hBlen]
  have hABClen : (natToLE 8 fstSeg.length ++ natToLE 8 houseSeg.length ++
      fstSeg).length = 16 + fstSeg.length := by
    rw [List.length_append, hABlen]
  have hshape1 : natToLE 8 fstSeg.length ++ natToLE 8 houseSeg.length ++
      fstSeg ++ houseSeg ++ rest =
      natToLE 8 fstSeg.length ++ (natToLE 8 houseSeg.length ++
        (fstSeg ++ (houseSeg ++ rest))) := by
    simp [List.append_assoc]
  have hshape2 : natToLE 8 fstSeg.length ++ natToLE 8 houseSeg.length ++
      fstSeg ++ houseSeg ++ rest =
      (natToLE 8 fstSeg.length ++ natToLE 8 houseSeg.length) ++
        (fstSeg ++ (houseSeg ++ rest)) := by
    simp [List.append_assoc]
  have hshape3 : natToLE 8 fstSeg.length ++ natToLE 8 houseSeg.length ++
      fstSeg ++ houseSeg ++ rest =
      (natToLE 8 fstSeg.length ++ natToLE 8 houseSeg.length ++ fstSeg) ++
        (houseSeg ++ rest) := by
    simp [List.append_assoc]
  have hbuflen : (natToLE 8 fstSeg.length ++ natToLE 8 houseSeg.length ++
      fstSeg ++ houseSeg ++ rest).length =
      16 + fstSeg.length + houseSeg.length + rest.length := by
    simp [List.length_append, hAlen, hBlen]
    omega
  have htake8 : (natToLE 8 fstSeg.length ++ natToLE 8 houseSeg.length ++
      fstSeg ++ houseSeg ++ rest).take 8 = natToLE 8 fstSeg.length := by
    rw [hshape1]
    exact List.take_left' hAlen
  have hdrop8 : ((natToLE 8 fstSeg.length ++ natToLE 8 houseSeg.length ++
      fstSeg ++ houseSeg ++ rest).drop 8).take 8 = natToLE 8 houseSeg.length := by
    rw [hshape1, List.drop_left' hAlen]
    exact List.take_left' hBlen
  have hfst : ((natToLE 8 fstSeg.length ++ natToLE 8 houseSeg.length ++
      fstSeg ++ houseSeg ++ rest).drop 16).take fstSeg.length = fstSeg := by
    rw [hshape2, List.drop_left' hABlen]
    exact List.take_left' rfl
  have hhouse : ((natToLE 8 fstSeg.length ++ natToLE 8 houseSeg.length ++
      fstSeg ++ houseSeg ++ rest).drop (16 + fstSeg.length)).take
        houseSeg.length = houseSeg := by
    rw [hshape3, List.drop_left' hABClen]
    exact List.take_left' rfl
  simp only [load_data]
  rw [if_neg (by omega), htake8, hdrop8, u64le_natToLE _ h1, u64le_natToLE _ h2,
    if_neg (by omega), hfst, hhouse]
  cases parse fstSeg <;> rfl

/-- C8 (witness): the loader layout at the concrete buffer with an empty
index segment, the one-byte list region `[0x07]`, and the toy deserializer
that accepts exactly the empty segment. -/
theorem C8_witness :
    load_data parseEx (natToLE 8 (([] : List (Fin 256))).length ++
        natToLE 8 ([(7 : Fin 256)]).length ++ [] ++ [(7 : Fin 256)] ++ []) =
      some { fst_map := [], house_data := [(7 : Fin 256)] } :=
  (C8_loader_layout parseEx [] [(7 : Fin 256)] [] (by norm_num) (by norm_num)).trans
    (by rfl)

/-- C9: for every input byte slice, including malformed and truncated ones,
the decoded sequence is monotonically non-decreasing — the decoder
guarantees unconditionally what the spec only asserts as a producer-side
contract. -/
theorem C9_decode_monotone (d : List (Fin 256)) :
    List.Sorted (· ≤ ·) (decompress_house_numbers d) :=
  decompress_sorted d

/-- C10: every value decode produces, on any input, is at most
`65535 + 65534 * 65535 = 65535²`, which is below `2 ^ 32` — so the `u32`
addition of the previous value and the delta never overflows. -/
theorem C10_decode_bounded (d : List (Fin 256)) (v : Nat)
    (hv : v ∈ decompress_house_numbers d) :
    v ≤ 65535 + 65534 * 65535 ∧ 65535 + 65534 * 65535 < 2 ^ 32 :=
  ⟨decompress_mem_le d v hv, by norm_num⟩

/-- C10 (witness): the bound applied at the decoded value 5 of the concrete
stream `[0x01, 0x00, 0x05, 0x00]`. -/
theorem C10_witness :
    5 ≤ 65535 + 65534 * 65535 ∧ 65535 + 65534 * 65535 < 2 ^ 32 :=
  C10_decode_bounded [1, 0, 5, 0] 5 (by decide)

end Postrust
